import Mathlib

/-!
Verification of the docstring-coverage analyzer
(`src/code-documentation/docstring_coverage.py`).

The script parses each Python file into an `ast` tree, walks it with
`ast.walk` (breadth-first), reports functions, classes and class methods
whose `ast.get_docstring` is falsy, and aggregates the findings over an
`os.walk` of a root directory.

Shallow embedding conventions:
* A Python statement relevant to the analysis is a `Stmt`; expression
  nodes can contain no `def`/`class` statements, so only statement
  children are modelled (`Stmt.other` covers compound statements such as
  `if`/`for`/`try`/`with`, whose child statements `ast.walk` visits).
* Strings are modelled as `List Char` wherever character-level
  processing happens, so that every definition evaluates inside the
  kernel.
* File reading and `ast.parse` are fallible; their outcome is made
  explicit as `FileContent` (`IOError`/`UnicodeDecodeError` on read and
  `SyntaxError` on parse are the caught exceptions).
* The filesystem walk `os.walk(directory)` is modelled by the sequence
  of `(root, files)` pairs it yields, a root being its list of path
  segments; `os.path.join` is segment concatenation and the joined path
  string is the `"/"`-intercalation of the segments (POSIX separator,
  segment names without separators), matching `root.split(os.sep)`.
* Printing is modelled as the list of printed lines; `sys.exit(n)` as
  returning the exit code `n`.
-/

/-- The statements of the Python AST that matter to the analyzer.
`funcDef`/`asyncFuncDef`/`classDef` carry `name`, `lineno` and `body`;
`exprStr` is an expression statement whose value is a string constant
(the docstring idiom), carrying the literal's text; `other` is any other
statement, with the statements nested inside it (so the walk reaches
declarations inside `if`/`for`/`try`/`while`/`with` blocks). -/
inductive Stmt where
  | funcDef (name : String) (line : Nat) (body : List Stmt)
  | asyncFuncDef (name : String) (line : Nat) (body : List Stmt)
  | classDef (name : String) (line : Nat) (body : List Stmt)
  | exprStr (s : String) (line : Nat)
  | other (line : Nat) (sub : List Stmt)

/-- An `ast.Module`: the parsed file, a list of top-level statements. -/
structure PyModule where
  body : List Stmt

/-- The child statements `ast.walk` enqueues for a node: the statements of
its body (expression children contain no statement nodes). -/
def children : Stmt → List Stmt
  | .funcDef _ _ b => b
  | .asyncFuncDef _ _ b => b
  | .classDef _ _ b => b
  | .exprStr _ _ => []
  | .other _ cs => cs

/-- The source line of a statement. -/
def stmtLine : Stmt → Nat
  | .funcDef _ l _ => l
  | .asyncFuncDef _ l _ => l
  | .classDef _ l _ => l
  | .exprStr _ l => l
  | .other l _ => l

mutual
/-- Node count of a statement tree (termination measure for the walk). -/
def Stmt.size : Stmt → Nat
  | .funcDef _ _ b => 1 + sizeList b
  | .asyncFuncDef _ _ b => 1 + sizeList b
  | .classDef _ _ b => 1 + sizeList b
  | .exprStr _ _ => 1
  | .other _ cs => 1 + sizeList cs
/-- Node count of a list of statement trees. -/
def sizeList : List Stmt → Nat
  | [] => 0
  | s :: ss => Stmt.size s + sizeList ss
end

/-- `ast.walk`'s breadth-first queue loop, with explicit fuel so that it
is structurally recursive: pop the front node, yield it, push its
children at the back. With fuel at least `sizeList q` the fuel never
runs out. -/
def walkQueueFuel : Nat → List Stmt → List Stmt
  | 0, _ => []
  | _ + 1, [] => []
  | n + 1, s :: rest => s :: walkQueueFuel n (rest ++ children s)

/-- `ast.walk` starting from a queue of statements: breadth-first order.
`ast.walk(tree)` on a parsed module yields the `Module` node (which the
analyzer ignores) and then exactly `walkQueue module.body`. -/
def walkQueue (q : List Stmt) : List Stmt :=
  walkQueueFuel (sizeList q) q

/-! ### `inspect.cleandoc`, as `ast.get_docstring(node, clean=True)` calls it -/

/-- Python `str.expandtabs()` (tab stops every 8 columns; `\n` and `\r`
reset the column), on the character list, tracking the current column. -/
def pyExpandTabsAux : Nat → List Char → List Char
  | _, [] => []
  | col, c :: cs =>
    if c = '\t' then
      List.replicate (8 - col % 8) ' ' ++ pyExpandTabsAux (col + (8 - col % 8)) cs
    else if c = '\n' || c = '\r' then
      c :: pyExpandTabsAux 0 cs
    else
      c :: pyExpandTabsAux (col + 1) cs

/-- Python `str.expandtabs()` from column 0. -/
def pyExpandTabs (l : List Char) : List Char :=
  pyExpandTabsAux 0 l

/-- Python `str.split('\n')`: the list of lines, always non-empty, empty
string giving `[[]]`. -/
def splitLines : List Char → List (List Char)
  | [] => [[]]
  | c :: cs =>
    if c = '\n' then [] :: splitLines cs
    else
      match splitLines cs with
      | l :: ls => (c :: l) :: ls
      | [] => [[c]]

/-- Python `str.lstrip(' ')`: drop leading space characters (spaces only,
as in `inspect.cleandoc`). -/
def lstripSp (l : List Char) : List Char :=
  l.dropWhile (fun c => c = ' ')

/-- One step of `inspect.cleandoc`'s margin loop: `content =
len(line.lstrip(' ')); if content: margin = min(margin, len(line) -
content)`. -/
def marginStep (acc : Option Nat) (line : List Char) : Option Nat :=
  if (lstripSp line).length ≠ 0 then
    match acc with
    | none => some (line.length - (lstripSp line).length)
    | some m => some (min m (line.length - (lstripSp line).length))
  else acc

/-- The `margin` computed by `inspect.cleandoc` over `lines[1:]`: the
least indentation of the lines with non-space content; `none` stands for
the untouched `sys.maxsize`. -/
def marginOf (ls : List (List Char)) : Option Nat :=
  ls.foldl marginStep none

/-- Python `'\n'.join(lines)` on character lists. -/
def joinNL : List (List Char) → List Char
  | [] => []
  | [l] => l
  | l :: l2 :: ls => l ++ '\n' :: joinNL (l2 :: ls)

/-- `while lines and not lines[-1]: lines.pop()`: remove trailing empty
lines. -/
def dropTrailingEmpties (ls : List (List Char)) : List (List Char) :=
  (ls.reverse.dropWhile List.isEmpty).reverse

/-- `inspect.cleandoc(doc)` (CPython): expand tabs, split into lines,
strip the first line's leading spaces, remove the common margin from the
later lines, drop leading and trailing empty lines, and re-join. -/
def cleandoc (doc : List Char) : List Char :=
  let lines := splitLines (pyExpandTabs doc)
  let lines2 :=
    match lines with
    | [] => []
    | l0 :: rest =>
      lstripSp l0 ::
        (match marginOf rest with
         | none => rest
         | some m => rest.map (fun l => l.drop m))
  let lines3 := (dropTrailingEmpties lines2).dropWhile List.isEmpty
  joinNL lines3

/-! ### `analyze_file` -/

/-- `ast.get_docstring(node)` over the node's body: the cleaned text of a
leading string-constant expression statement, else `None`. -/
def get_docstring : List Stmt → Option (List Char)
  | Stmt.exprStr s _ :: _ => some (cleandoc s.toList)
  | _ => none

/-- The analyzer's test `if not ast.get_docstring(node)`: true when there
is no docstring or the cleaned docstring is the empty (falsy) string. -/
def docMissing (body : List Stmt) : Bool :=
  match get_docstring body with
  | none => true
  | some t => t.isEmpty

/-- One item of `analyze_file`'s result: the tuple
`(type_name, line_number, name)`. -/
structure Finding where
  kind : String
  line : Nat
  name : String
deriving Repr, DecidableEq

/-- The `for item in node.body` loop of the `ClassDef` branch: immediate
body members that are function-like and lack a docstring, reported as
`Method` with the qualified name `ClassName.methodName`. -/
def methodFindings (cname : String) (body : List Stmt) : List Finding :=
  body.flatMap (fun item =>
    match item with
    | Stmt.funcDef n l b =>
      if docMissing b then [⟨"Method", l, cname ++ "." ++ n⟩] else []
    | Stmt.asyncFuncDef n l b =>
      if docMissing b then [⟨"Method", l, cname ++ "." ++ n⟩] else []
    | _ => [])

/-- The body of the `for node in ast.walk(tree)` loop: the findings one
visited node appends.  A `FunctionDef` or `AsyncFunctionDef` without
docstring yields a `"Function"` item; a `ClassDef` yields a `"Class"`
item when itself undocumented, followed by its undocumented methods. -/
def checkNode : Stmt → List Finding
  | Stmt.funcDef n l b => if docMissing b then [⟨"Function", l, n⟩] else []
  | Stmt.asyncFuncDef n l b => if docMissing b then [⟨"Function", l, n⟩] else []
  | Stmt.classDef n l b =>
    (if docMissing b then [⟨"Class", l, n⟩] else []) ++ methodFindings n b
  | _ => []

/-- `analyze_file`'s walk over a successfully parsed module: the findings
appended across `ast.walk(tree)` in walk (breadth-first) order.  The
`Module` node itself is visited first and contributes nothing. -/
def moduleFindings (m : PyModule) : List Finding :=
  (walkQueue m.body).flatMap checkNode

/-- The outcome of opening and parsing one file: the parsed module, or
the caught read failure (`IOError`/`UnicodeDecodeError`) or parse
failure (`SyntaxError`). -/
inductive FileContent where
  | parsed (m : PyModule)
  | unreadable
  | syntaxError

/-- `analyze_file`: returns the missing-docstring items of one file, and
`[]` for a file whose read or parse failed (both exceptions are caught
and give an early `return []`). -/
def analyze_file : FileContent → List Finding
  | .parsed m => moduleFindings m
  | .unreadable => []
  | .syntaxError => []

/-! ### `scan_directory` and `__main__` -/

/-- A directory entry seen by the scan: a file name and its content
outcome. -/
structure FsFile where
  name : String
  content : FileContent

/-- One `(root, dirs, files)` triple yielded by `os.walk` (the unused
`dirs` omitted): the root as its path segments, and the file entries. -/
abbrev WalkEntry := List String × List FsFile

/-- Python `part.startswith('.')`. -/
def startsWithDot (s : String) : Bool :=
  match s.toList with
  | c :: _ => c = '.'
  | [] => false

/-- Substring test, `pat in l` for Python strings. -/
def hasInfix (pat : List Char) : List Char → Bool
  | [] => pat.isEmpty
  | c :: cs => pat.isPrefixOf (c :: cs) || hasInfix pat cs

/-- Python `file.endswith(".py")`. -/
def endsWithPy (s : String) : Bool :=
  List.isSuffixOf ['.', 'p', 'y'] s.toList

/-- The joined path string of a root's segments (`os.sep` is `"/"`). -/
def joinPath (segs : List String) : String :=
  String.intercalate "/" segs

/-- The two `continue` filters of the walk loop:
`any(part.startswith('.') for part in root.split(os.sep))` and
`'__pycache__' in root`. -/
def shouldSkipRoot (segs : List String) : Bool :=
  segs.any startsWithDot || hasInfix "__pycache__".toList (joinPath segs).toList

/-- The mutable state of `scan_directory`'s loop: the two counters and
the lines printed so far. -/
structure ScanState where
  totalMissing : Nat
  filesScanned : Nat
  out : List String
deriving Repr, DecidableEq

/-- The printed line for one finding, the f-string
`f"  - Line {line}: {item_type} '{name}' is missing a docstring."`. -/
def findingLine (f : Finding) : String :=
  "  - Line " ++ toString f.line ++ ": " ++ f.kind ++ " '" ++ f.name ++
    "' is missing a docstring."

/-- The `if file.endswith(".py")` body: analyze the file and, when items
are missing, bump `files_scanned`, print the path header, the item lines
(each also bumping `total_missing`) and a blank line. -/
def processFile (rootSegs : List String) (st : ScanState) (f : FsFile) : ScanState :=
  if endsWithPy f.name then
    let missing := analyze_file f.content
    if missing.isEmpty then st
    else
      { totalMissing := st.totalMissing + missing.length
        filesScanned := st.filesScanned + 1
        out := st.out ++ [joinPath (rootSegs ++ [f.name]) ++ ":"] ++
          missing.map findingLine ++ [""] }
  else st

/-- One iteration of `for root, _, files in os.walk(directory)`: skip a
filtered root wholesale, else fold the file loop. -/
def processEntry (st : ScanState) (e : WalkEntry) : ScanState :=
  if shouldSkipRoot e.1 then st else e.2.foldl (processFile e.1) st

/-- The loop of `scan_directory` over the walk entries, from zeroed
counters. -/
def scanStateOf (entries : List WalkEntry) : ScanState :=
  entries.foldl processEntry ⟨0, 0, []⟩

/-- `scan_directory`: header, walk loop, summary, and the final
`sys.exit` code (1 when missing items were found, else 0).  `absDir` is
`os.path.abspath(directory)`; the header f-string's trailing `\n` prints
an extra blank line. -/
def scan_directory (absDir : String) (entries : List WalkEntry) : List String × Nat :=
  let st := scanStateOf entries
  let out := ("Scanning directory: " ++ absDir) :: "" :: st.out ++
    ["--- Summary ---", "Total missing docstrings found: " ++ toString st.totalMissing]
  if st.totalMissing > 0 then (out, 1)
  else (out ++ ["No missing docstrings found!"], 0)

/-- `sys.argv[1] if len(sys.argv) > 1 else "."`: `args` are the
command-line arguments after the program name. -/
def targetOf (args : List String) : String :=
  args.headD "."

/-- The `__main__` block.  `fs` models the filesystem as seen through
`os.path.isdir` plus `os.walk`: `fs path = none` when `path` is not a
directory, else the walk entries under it.  A non-directory target
prints one error line and exits 1 before any scan. -/
def runMain (args : List String) (fs : String → Option (List WalkEntry))
    (absDir : String) : List String × Nat :=
  match fs (targetOf args) with
  | none => (["Error: Directory '" ++ targetOf args ++ "' does not exist."], 1)
  | some entries => scan_directory absDir entries

/-! ### Walk lemmas -/

/-- Every statement has positive size. -/
theorem Stmt.size_pos (s : Stmt) : 1 ≤ Stmt.size s := by
  cases s <;> simp [Stmt.size]

/-- `sizeList` over an append. -/
theorem sizeList_append (a b : List Stmt) :
    sizeList (a ++ b) = sizeList a + sizeList b := by
  induction a with
  | nil => simp [sizeList]
  | cons s ss ih => simp [sizeList, ih]; omega

/-- The children of a statement are strictly smaller than it. -/
theorem sizeList_children_lt (s : Stmt) : sizeList (children s) < Stmt.size s := by
  cases s <;> simp [children, Stmt.size, sizeList]

/-- The fuel of the walk is irrelevant once it covers the queue's size. -/
theorem walkQueueFuel_congr :
    ∀ (n m : Nat) (q : List Stmt), sizeList q ≤ n → sizeList q ≤ m →
      walkQueueFuel n q = walkQueueFuel m q := by
  intro n
  induction n with
  | zero =>
    intro m q hn _
    cases q with
    | nil => cases m <;> rfl
    | cons s rest =>
      exfalso
      have := Stmt.size_pos s
      simp [sizeList] at hn
      omega
  | succ n ih =>
    intro m q hn hm
    cases q with
    | nil => cases m <;> rfl
    | cons s rest =>
      cases m with
      | zero =>
        exfalso
        have := Stmt.size_pos s
        simp [sizeList] at hm
        omega
      | succ m =>
        have hc := sizeList_children_lt s
        have hs : sizeList (rest ++ children s) = sizeList rest + sizeList (children s) :=
          sizeList_append _ _
        have h1 : sizeList (rest ++ children s) ≤ n := by
          simp [sizeList] at hn; omega
        have h2 : sizeList (rest ++ children s) ≤ m := by
          simp [sizeList] at hm; omega
        simp [walkQueueFuel, ih m (rest ++ children s) h1 h2]

@[simp]
theorem walkQueue_nil : walkQueue [] = [] := rfl

/-- The walk's unfolding: visit the head, enqueue its children. -/
theorem walkQueue_cons (s : Stmt) (rest : List Stmt) :
    walkQueue (s :: rest) = s :: walkQueue (rest ++ children s) := by
  have hc := sizeList_children_lt s
  have hs := sizeList_append rest (children s)
  have h1 : sizeList (s :: rest) = Stmt.size s + sizeList rest := rfl
  have hpos := Stmt.size_pos s
  obtain ⟨k, hk⟩ : ∃ k, sizeList (s :: rest) = k + 1 := ⟨sizeList (s :: rest) - 1, by omega⟩
  calc walkQueue (s :: rest) = walkQueueFuel (k + 1) (s :: rest) := by rw [walkQueue, hk]
    _ = s :: walkQueueFuel k (rest ++ children s) := rfl
    _ = s :: walkQueueFuel (sizeList (rest ++ children s)) (rest ++ children s) := by
        rw [walkQueueFuel_congr k _ (rest ++ children s) (by omega) (le_refl _)]
    _ = s :: walkQueue (rest ++ children s) := rfl

/-- `s` occurs in the statement tree `t`: reflexively, or inside a child. -/
inductive Occurs : Stmt → Stmt → Prop where
  | refl (s : Stmt) : Occurs s s
  | child {s c t : Stmt} : c ∈ children t → Occurs s c → Occurs s t

theorem occurs_iff (s t : Stmt) :
    Occurs s t ↔ s = t ∨ ∃ c ∈ children t, Occurs s c := by
  constructor
  · intro h
    cases h with
    | refl => exact Or.inl rfl
    | child hc ho => exact Or.inr ⟨_, hc, ho⟩
  · rintro (rfl | ⟨c, hc, ho⟩)
    · exact Occurs.refl _
    · exact Occurs.child hc ho

/-- The walk enumerates exactly the statements occurring in the queue's
trees. -/
theorem mem_walkQueue_iff :
    ∀ (n : Nat) (q : List Stmt), sizeList q ≤ n →
      ∀ s : Stmt, s ∈ walkQueue q ↔ ∃ t ∈ q, Occurs s t := by
  intro n
  induction n with
  | zero =>
    intro q hn s
    cases q with
    | nil => simp
    | cons u rest =>
      exfalso
      have := Stmt.size_pos u
      simp [sizeList] at hn
      omega
  | succ n ih =>
    intro q hn s
    cases q with
    | nil => simp
    | cons u rest =>
      have hc := sizeList_children_lt u
      have hs := sizeList_append rest (children u)
      have h1 : sizeList (rest ++ children u) ≤ n := by
        simp [sizeList] at hn; omega
      rw [walkQueue_cons]
      simp only [List.mem_cons, ih (rest ++ children u) h1 s, List.mem_append]
      constructor
      · rintro (rfl | ⟨t, ht | ht, ho⟩)
        · exact ⟨_, Or.inl rfl, Occurs.refl _⟩
        · exact ⟨t, Or.inr ht, ho⟩
        · exact ⟨u, Or.inl rfl, Occurs.child ht ho⟩
      · rintro ⟨t, ht | ht, ho⟩
        · rcases (occurs_iff s t).mp ho with rfl | ⟨c, hc', ho'⟩
          · exact Or.inl ht
          · exact Or.inr ⟨c, Or.inr (ht ▸ hc'), ho'⟩
        · exact Or.inr ⟨t, Or.inl ht, ho⟩

/-- Membership form of the walk, with the fuel discharged. -/
theorem mem_walkQueue (q : List Stmt) (s : Stmt) :
    s ∈ walkQueue q ↔ ∃ t ∈ q, Occurs s t :=
  mem_walkQueue_iff (sizeList q) q (le_refl _) s

/-! ### Declaration-free subtrees (for the ordering analysis of the walk) -/

/-- Whether a statement is itself a reportable declaration. -/
def isDeclStmt : Stmt → Bool
  | .funcDef _ _ _ => true
  | .asyncFuncDef _ _ _ => true
  | .classDef _ _ _ => true
  | _ => false

mutual
/-- The statement and everything below it is free of declarations. -/
def declFree : Stmt → Bool
  | .exprStr _ _ => true
  | .other _ cs => declFreeList cs
  | _ => false
/-- Every statement of the list is hereditarily declaration-free. -/
def declFreeList : List Stmt → Bool
  | [] => true
  | s :: ss => declFree s && declFreeList ss
end

theorem declFreeList_eq_all (l : List Stmt) : declFreeList l = l.all declFree := by
  induction l with
  | nil => rfl
  | cons s ss ih => simp [declFreeList, ih]

theorem declFree_children {s : Stmt} (h : declFree s = true) :
    ∀ c ∈ children s, declFree c = true := by
  cases s with
  | exprStr s l => simp [children]
  | other l cs =>
    simp only [declFree, declFreeList_eq_all, List.all_eq_true] at h
    simpa [children] using h
  | funcDef n l b => simp [declFree] at h
  | asyncFuncDef n l b => simp [declFree] at h
  | classDef n l b => simp [declFree] at h

theorem checkNode_of_declFree {s : Stmt} (h : declFree s = true) : checkNode s = [] := by
  cases s <;> simp_all [declFree, checkNode]

theorem methodFindings_of_declFree {cname : String} {b : List Stmt}
    (h : ∀ c ∈ b, declFree c = true) : methodFindings cname b = [] := by
  induction b with
  | nil => rfl
  | cons s ss ih =>
    have hs := h s (by simp)
    have ih' := ih (fun c hc => h c (by simp [hc]))
    cases s <;> simp_all [methodFindings, declFree]

/-- A declaration-free queue produces no findings. -/
theorem walk_findings_of_declFree :
    ∀ (n : Nat) (q : List Stmt), sizeList q ≤ n →
      (∀ s ∈ q, declFree s = true) →
      (walkQueue q).flatMap checkNode = [] := by
  intro n
  induction n with
  | zero =>
    intro q hn hq
    cases q with
    | nil => simp
    | cons u rest =>
      exfalso
      have := Stmt.size_pos u
      simp [sizeList] at hn
      omega
  | succ n ih =>
    intro q hn hq
    cases q with
    | nil => simp
    | cons u rest =>
      have hc := sizeList_children_lt u
      have hs := sizeList_append rest (children u)
      have h1 : sizeList (rest ++ children u) ≤ n := by
        simp [sizeList] at hn; omega
      have hu := hq u (by simp)
      rw [walkQueue_cons]
      simp only [List.flatMap_cons, checkNode_of_declFree hu, List.nil_append]
      exact ih (rest ++ children u) h1 (by
        intro s hs'
        rcases List.mem_append.mp hs' with h | h
        · exact hq s (by simp [h])
        · exact declFree_children hu s h)

theorem flatMap_checkNode_nil {l : List Stmt}
    (h : ∀ c ∈ l, declFree c = true) : l.flatMap checkNode = [] := by
  induction l with
  | nil => rfl
  | cons c cs ih =>
    simp only [List.flatMap_cons]
    rw [checkNode_of_declFree (h c (by simp)), ih (fun d hd => h d (by simp [hd]))]
    rfl

/-- When every queued statement has only declaration-free children, the
walk's findings are exactly the queue's own, in queue order. -/
theorem walk_findings_flat :
    ∀ (n : Nat) (q : List Stmt), sizeList q ≤ n →
      (∀ s ∈ q, ∀ c ∈ children s, declFree c = true) →
      (walkQueue q).flatMap checkNode = q.flatMap checkNode := by
  intro n
  induction n with
  | zero =>
    intro q hn hq
    cases q with
    | nil => simp
    | cons u rest =>
      exfalso
      have := Stmt.size_pos u
      simp [sizeList] at hn
      omega
  | succ n ih =>
    intro q hn hq
    cases q with
    | nil => simp
    | cons u rest =>
      have hc := sizeList_children_lt u
      have hs := sizeList_append rest (children u)
      have h1 : sizeList (rest ++ children u) ≤ n := by
        simp [sizeList] at hn; omega
      have hflat : (walkQueue (rest ++ children u)).flatMap checkNode =
          (rest ++ children u).flatMap checkNode := by
        refine ih (rest ++ children u) h1 ?_
        intro s hs' c hcs
        rcases List.mem_append.mp hs' with h | h
        · exact hq s (by simp [h]) c hcs
        · exact declFree_children (hq u (by simp) s h) c hcs
      rw [walkQueue_cons]
      simp only [List.flatMap_cons, hflat, List.flatMap_append]
      rw [flatMap_checkNode_nil (hq u (by simp))]
      simp

theorem checkNode_line_eq {s : Stmt} (h : ∀ c ∈ children s, declFree c = true) :
    ∀ f ∈ checkNode s, f.line = stmtLine s := by
  cases s with
  | funcDef n l b =>
    intro f hf
    simp only [checkNode] at hf
    split at hf <;> simp_all [stmtLine]
  | asyncFuncDef n l b =>
    intro f hf
    simp only [checkNode] at hf
    split at hf <;> simp_all [stmtLine]
  | classDef n l b =>
    intro f hf
    simp only [checkNode] at hf
    rw [methodFindings_of_declFree (by simpa [children] using h)] at hf
    split at hf <;> simp_all [stmtLine]
  | exprStr s l => intro f hf; simp [checkNode] at hf
  | other l cs => intro f hf; simp [checkNode] at hf

theorem checkNode_length_le {s : Stmt} (h : ∀ c ∈ children s, declFree c = true) :
    (checkNode s).length ≤ 1 := by
  cases s with
  | funcDef n l b => simp only [checkNode]; split <;> simp
  | asyncFuncDef n l b => simp only [checkNode]; split <;> simp
  | classDef n l b =>
    simp only [checkNode]
    rw [methodFindings_of_declFree (by simpa [children] using h)]
    split <;> simp
  | exprStr s l => simp [checkNode]
  | other l cs => simp [checkNode]

/-- Findings of a flat module, pairwise ordered by the statements' order. -/
theorem pairwise_flatMap_checkNode {body : List Stmt}
    (hflat : ∀ s ∈ body, ∀ c ∈ children s, declFree c = true)
    (hord : List.Pairwise (fun a b => stmtLine a ≤ stmtLine b) body) :
    List.Pairwise (fun f g : Finding => f.line ≤ g.line) (body.flatMap checkNode) := by
  induction body with
  | nil => simp
  | cons s rest ih =>
    simp only [List.flatMap_cons]
    rw [List.pairwise_append]
    refine ⟨?_, ?_, ?_⟩
    · have hlen := checkNode_length_le (hflat s (by simp))
      cases hck : checkNode s with
      | nil => simp
      | cons a t =>
        cases t with
        | nil => simp
        | cons b t' => rw [hck] at hlen; simp at hlen
    · exact ih (fun t ht c hc => hflat t (by simp [ht]) c hc) (List.Pairwise.of_cons hord)
    · intro a ha b hb
      have ha' := checkNode_line_eq (hflat s (by simp)) a ha
      rcases List.mem_flatMap.mp hb with ⟨t, ht, hbt⟩
      have hb' := checkNode_line_eq (fun c hc => hflat t (by simp [ht]) c hc) b hbt
      have := (List.pairwise_cons.mp hord).1 t ht
      omega

/-! ### Closed form of the scan loop -/

/-- How many findings one directory entry's file contributes to
`total_missing`. -/
def fileMissingCount (f : FsFile) : Nat :=
  if endsWithPy f.name then (analyze_file f.content).length else 0

/-- Whether one file bumps `files_scanned` (1 or 0). -/
def fileScanCount (f : FsFile) : Nat :=
  if endsWithPy f.name && !(analyze_file f.content).isEmpty then 1 else 0

/-- The lines one file prints: a path header, one line per finding and a
blank line, or nothing when it is not a `.py` file or has no missing
items. -/
def fileBlock (rootSegs : List String) (f : FsFile) : List String :=
  if endsWithPy f.name && !(analyze_file f.content).isEmpty then
    (joinPath (rootSegs ++ [f.name]) ++ ":") :: (analyze_file f.content).map findingLine ++ [""]
  else []

/-- The findings one walk entry contributes. -/
def entryTotal (e : WalkEntry) : Nat :=
  if shouldSkipRoot e.1 then 0 else (e.2.map fileMissingCount).sum

/-- The `files_scanned` one walk entry contributes. -/
def entryScan (e : WalkEntry) : Nat :=
  if shouldSkipRoot e.1 then 0 else (e.2.map fileScanCount).sum

/-- The lines one walk entry prints. -/
def entryOut (e : WalkEntry) : List String :=
  if shouldSkipRoot e.1 then [] else e.2.flatMap (fileBlock e.1)

/-- The `.py` files under non-skipped roots, with their roots, in walk
order: the files the scan hands to `analyze_file`. -/
def candidateFiles (entries : List WalkEntry) : List (List String × FsFile) :=
  entries.flatMap (fun e =>
    if shouldSkipRoot e.1 then []
    else (e.2.filter (fun f => endsWithPy f.name)).map (fun f => (e.1, f)))

theorem processFile_eq (rootSegs : List String) (st : ScanState) (f : FsFile) :
    processFile rootSegs st f =
      ⟨st.totalMissing + fileMissingCount f, st.filesScanned + fileScanCount f,
        st.out ++ fileBlock rootSegs f⟩ := by
  unfold processFile fileMissingCount fileScanCount fileBlock
  cases hpy : endsWithPy f.name with
  | false => simp
  | true =>
    cases hali : analyze_file f.content with
    | nil => simp [hali]
    | cons a t => simp [hali]

theorem foldl_processFile (rootSegs : List String) :
    ∀ (files : List FsFile) (st : ScanState),
      files.foldl (processFile rootSegs) st =
        ⟨st.totalMissing + (files.map fileMissingCount).sum,
          st.filesScanned + (files.map fileScanCount).sum,
          st.out ++ files.flatMap (fileBlock rootSegs)⟩ := by
  intro files
  induction files with
  | nil => intro st; simp
  | cons f fs ih =>
    intro st
    simp only [List.foldl_cons, ih, processFile_eq, List.map_cons, List.sum_cons,
      List.flatMap_cons, List.append_assoc]
    congr 1 <;> omega

theorem processEntry_eq (st : ScanState) (e : WalkEntry) :
    processEntry st e =
      ⟨st.totalMissing + entryTotal e, st.filesScanned + entryScan e,
        st.out ++ entryOut e⟩ := by
  unfold processEntry entryTotal entryScan entryOut
  cases hskip : shouldSkipRoot e.1 with
  | true => simp
  | false => simp [foldl_processFile]

/-- Closed form of the walk loop's final state. -/
theorem scanStateOf_eq (entries : List WalkEntry) :
    scanStateOf entries =
      ⟨(entries.map entryTotal).sum, (entries.map entryScan).sum,
        entries.flatMap entryOut⟩ := by
  have h : ∀ (es : List WalkEntry) (st : ScanState),
      es.foldl processEntry st =
        ⟨st.totalMissing + (es.map entryTotal).sum,
          st.filesScanned + (es.map entryScan).sum,
          st.out ++ es.flatMap entryOut⟩ := by
    intro es
    induction es with
    | nil => intro st; simp
    | cons e es ih =>
      intro st
      simp only [List.foldl_cons, ih, processEntry_eq, List.map_cons, List.sum_cons,
        List.flatMap_cons, List.append_assoc]
      congr 1 <;> omega
  simpa [scanStateOf] using h entries ⟨0, 0, []⟩

/-- `files_scanned` counts exactly the candidate files with a non-empty
missing list. -/
theorem scan_count_eq_filter (entries : List WalkEntry) :
    (entries.map entryScan).sum =
      ((candidateFiles entries).filter
        (fun rf => !(analyze_file rf.2.content).isEmpty)).length := by
  induction entries with
  | nil => rfl
  | cons e es ih =>
    have hfile : ∀ fs : List FsFile,
        (fs.map fileScanCount).sum =
          ((fs.filter (fun f => endsWithPy f.name)).filter
            (fun f => !(analyze_file f.content).isEmpty)).length := by
      intro fs
      induction fs with
      | nil => rfl
      | cons f fs ihf =>
        cases hpy : endsWithPy f.name with
        | false => simp [fileScanCount, hpy, ihf]
        | true =>
          cases hmiss : (analyze_file f.content).isEmpty with
          | true => simp [fileScanCount, hpy, hmiss, ihf]
          | false =>
            simp [fileScanCount, hpy, hmiss, ihf]
            omega
    simp only [List.map_cons, List.sum_cons, candidateFiles, List.flatMap_cons,
      List.filter_append, List.length_append]
    rw [← candidateFiles, ih]
    congr 1
    cases hskip : shouldSkipRoot e.1 with
    | true => simp [entryScan, hskip]
    | false =>
      simp only [entryScan, hskip, Bool.false_eq_true, if_false, List.filter_map,
        List.length_map]
      rw [hfile e.2]
      simp [Function.comp]

/-! ### When `inspect.cleandoc` yields the empty (falsy) string -/

theorem splitLines_ne_nil (l : List Char) : splitLines l ≠ [] := by
  cases l with
  | nil => simp [splitLines]
  | cons c cs =>
    simp only [splitLines]
    split
    · simp
    · split <;> simp

theorem mem_dropWhile_of_mem {α : Type} {p : α → Bool} {x : α} :
    ∀ {l : List α}, x ∈ l → p x = false → x ∈ l.dropWhile p := by
  intro l
  induction l with
  | nil => intro h; simp at h
  | cons a t ih =>
    intro hx hp
    rw [List.dropWhile_cons]
    split
    · rcases List.mem_cons.mp hx with rfl | hx'
      · simp_all
      · exact ih hx' hp
    · exact hx

theorem dropWhile_head_not {α : Type} {p : α → Bool} :
    ∀ {l : List α} {x : α} {xs : List α}, l.dropWhile p = x :: xs → p x = false := by
  intro l
  induction l with
  | nil => intro x xs h; simp at h
  | cons a t ih =>
    intro x xs h
    rw [List.dropWhile_cons] at h
    split at h
    · exact ih h
    · cases h; simp_all

/-- The trailing-then-leading blank-line removal yields the empty list
exactly when every line was empty. -/
theorem cleanTailLines_eq_nil_iff (ls : List (List Char)) :
    (dropTrailingEmpties ls).dropWhile List.isEmpty = [] ↔ ∀ x ∈ ls, x = [] := by
  constructor
  · intro h x hx
    by_contra hne
    have hxe : x.isEmpty = false := by
      cases x with
      | nil => simp at hne
      | cons a t => rfl
    have h1 : x ∈ dropTrailingEmpties ls := by
      unfold dropTrailingEmpties
      exact List.mem_reverse.mpr
        (mem_dropWhile_of_mem (List.mem_reverse.mpr hx) hxe)
    have h2 : x ∈ (dropTrailingEmpties ls).dropWhile List.isEmpty :=
      mem_dropWhile_of_mem h1 hxe
    rw [h] at h2
    simp at h2
  · intro h
    have h1 : dropTrailingEmpties ls = [] := by
      unfold dropTrailingEmpties
      have : ls.reverse.dropWhile List.isEmpty = [] := by
        rw [List.dropWhile_eq_nil_iff]
        intro x hx
        have := h x (List.mem_reverse.mp hx)
        simp [this]
      simp [this]
    simp [h1]

/-- `'\n'.join` of the cleaned lines is empty exactly when no line
survived. -/
theorem joinNL_cleanLines_eq_nil_iff (ls : List (List Char)) :
    joinNL ((dropTrailingEmpties ls).dropWhile List.isEmpty) = [] ↔ ∀ x ∈ ls, x = [] := by
  rw [← cleanTailLines_eq_nil_iff]
  cases hdrop : (dropTrailingEmpties ls).dropWhile List.isEmpty with
  | nil => simp [joinNL]
  | cons y ys =>
    have hy : y.isEmpty = false := dropWhile_head_not hdrop
    have hyne : y ≠ [] := by cases y <;> simp_all
    constructor
    · intro h
      exfalso
      cases ys with
      | nil => exact hyne (by simpa [joinNL] using h)
      | cons z zs => simp [joinNL] at h
    · intro h
      simp at h

/-- A computed margin is the indentation of some content line. -/
theorem marginFold_some :
    ∀ (ls : List (List Char)) (acc : Option Nat) (m : Nat),
      ls.foldl marginStep acc = some m →
      acc = some m ∨
        ∃ l ∈ ls, (lstripSp l).length ≠ 0 ∧ l.length - (lstripSp l).length = m := by
  intro ls
  induction ls with
  | nil => intro acc m h; exact Or.inl h
  | cons line ls ih =>
    intro acc m h
    simp only [List.foldl_cons] at h
    rcases ih _ m h with hacc | ⟨l, hl, hc, hm⟩
    · unfold marginStep at hacc
      by_cases hcont : (lstripSp line).length ≠ 0
      · rw [if_pos hcont] at hacc
        cases acc with
        | none =>
          right
          refine ⟨line, by simp, hcont, ?_⟩
          simpa using hacc
        | some a =>
          have hmin : min a (line.length - (lstripSp line).length) = m := by
            simpa using hacc
          rcases min_choice a (line.length - (lstripSp line).length) with h1 | h1
          · left; rw [hmin] at h1; rw [h1]
          · right; exact ⟨line, by simp, hcont, by rw [hmin] at h1; exact h1.symm⟩
      · rw [if_neg hcont] at hacc
        exact Or.inl hacc
    · right; exact ⟨l, by simp [hl], hc, hm⟩

/-- Dropping a content line's own indentation leaves its content. -/
theorem drop_indent_eq_lstrip (l : List Char) :
    l.drop (l.length - (lstripSp l).length) = lstripSp l := by
  have hsplit := List.takeWhile_append_dropWhile (fun c => c = ' ') l
  have hlen : (l.takeWhile (fun c => c = ' ')).length = l.length - (lstripSp l).length := by
    have := congrArg List.length hsplit
    simp only [List.length_append] at this
    unfold lstripSp
    omega
  calc l.drop (l.length - (lstripSp l).length)
      = (l.takeWhile (fun c => c = ' ') ++ l.dropWhile (fun c => c = ' ')).drop
          (l.length - (lstripSp l).length) := by rw [hsplit]
    _ = lstripSp l := by
        rw [← hlen, List.drop_left]
        rfl

/-- `inspect.cleandoc` returns the empty (falsy) string exactly when the
first line is all spaces and every later line is empty. -/
theorem cleandoc_eq_nil_iff (doc l0 : List Char) (rest : List (List Char))
    (hsplit : splitLines (pyExpandTabs doc) = l0 :: rest) :
    (cleandoc doc = [] ↔ (lstripSp l0 = [] ∧ ∀ l ∈ rest, l = [])) := by
  unfold cleandoc
  rw [hsplit]
  dsimp only
  cases hm : marginOf rest with
  | none =>
    dsimp only
    rw [joinNL_cleanLines_eq_nil_iff]
    constructor
    · intro h
      exact ⟨h (lstripSp l0) (by simp), fun l hl => h l (by simp [hl])⟩
    · rintro ⟨h0, hrest⟩ x hx
      rcases List.mem_cons.mp hx with rfl | hx'
      · exact h0
      · exact hrest x hx'
  | some m =>
    dsimp only
    rw [joinNL_cleanLines_eq_nil_iff]
    rcases marginFold_some rest none m hm with h | ⟨l, hl, hc, hind⟩
    · simp at h
    · have hdrop : l.drop m = lstripSp l := by rw [← hind]; exact drop_indent_eq_lstrip l
      have hne : lstripSp l ≠ [] := by
        intro h0
        rw [h0] at hc
        simp at hc
      constructor
      · intro h
        exfalso
        have : l.drop m ∈ lstripSp l0 :: rest.map (fun l => l.drop m) := by
          simp only [List.mem_cons]
          exact Or.inr (List.mem_map.mpr ⟨l, hl, rfl⟩)
        have := h _ this
        rw [hdrop] at this
        exact hne this
      · rintro ⟨h0, hrest⟩
        exfalso
        have hlnil := hrest l hl
        rw [hlnil] at hne
        exact hne rfl

theorem pyExpandTabsAux_all_space :
    ∀ (l : List Char) (col : Nat), (∀ c ∈ l, c = ' ' ∨ c = '\t') →
      ∀ c ∈ pyExpandTabsAux col l, c = ' ' := by
  intro l
  induction l with
  | nil => intro col h c hc; simp [pyExpandTabsAux] at hc
  | cons a t ih =>
    intro col h c hc
    rcases h a (by simp) with ha | ha
    · subst ha
      rw [pyExpandTabsAux, if_neg (by decide), if_neg (by decide)] at hc
      rcases List.mem_cons.mp hc with rfl | hc'
      · rfl
      · exact ih _ (fun d hd => h d (by simp [hd])) c hc'
    · subst ha
      rw [pyExpandTabsAux, if_pos rfl] at hc
      rcases List.mem_append.mp hc with hc' | hc'
      · exact List.eq_of_mem_replicate hc'
      · exact ih _ (fun d hd => h d (by simp [hd])) c hc'

theorem splitLines_no_newline :
    ∀ l : List Char, (∀ c ∈ l, c ≠ '\n') → splitLines l = [l] := by
  intro l
  induction l with
  | nil => intro _; rfl
  | cons a t ih =>
    intro h
    rw [splitLines, if_neg (h a (by simp)), ih (fun d hd => h d (by simp [hd]))]

/-! ### Spec-side notions (for stating the claims) -/

/-- Python `str.strip()` restricted to the blank characters space, tab,
carriage return and newline: the "trimming" of the specification. -/
def pyStrip (l : List Char) : List Char :=
  ((l.dropWhile Char.isWhitespace).reverse.dropWhile Char.isWhitespace).reverse

/-- Declarative emptiness of the cleaned docstring: after tab expansion,
the first line is all spaces and every later line is empty (this is
exactly when `inspect.cleandoc` yields the empty, falsy string). -/
def docBlank (s : String) : Bool :=
  match splitLines (pyExpandTabs s.toList) with
  | [] => true
  | l0 :: rest => l0.all (fun c => c = ' ') && rest.all List.isEmpty

/-- `docMissing` (the code's `not ast.get_docstring(node)`) in terms of
the declarative `docBlank`. -/
theorem docMissing_eq_false_iff (body : List Stmt) :
    docMissing body = false ↔
      ∃ s l rest, body = Stmt.exprStr s l :: rest ∧ docBlank s = false := by
  cases body with
  | nil => simp [docMissing, get_docstring]
  | cons hd tl =>
    cases hd with
    | exprStr s l =>
      simp only [docMissing, get_docstring]
      obtain ⟨l0, rest, hsplit⟩ : ∃ l0 rest, splitLines (pyExpandTabs s.toList) = l0 :: rest := by
        cases hs : splitLines (pyExpandTabs s.toList) with
        | nil => exact absurd hs (splitLines_ne_nil _)
        | cons a b => exact ⟨a, b, rfl⟩
      have hchar := cleandoc_eq_nil_iff s.toList l0 rest hsplit
      have hblank : docBlank s = true ↔ (lstripSp l0 = [] ∧ ∀ l ∈ rest, l = []) := by
        unfold docBlank
        rw [hsplit]
        simp only [Bool.and_eq_true, List.all_eq_true]
        constructor
        · rintro ⟨h1, h2⟩
          refine ⟨?_, fun l hl => by simpa using h2 l hl⟩
          unfold lstripSp
          rw [List.dropWhile_eq_nil_iff]
          intro x hx
          simpa using h1 x hx
        · rintro ⟨h1, h2⟩
          constructor
          · intro x hx
            unfold lstripSp at h1
            rw [List.dropWhile_eq_nil_iff] at h1
            simpa using h1 x hx
          · intro l hl
            simp [h2 l hl]
      constructor
      · intro hmiss
        refine ⟨s, l, tl, rfl, ?_⟩
        by_contra hbl
        have hbl' : docBlank s = true := by
          cases hdb : docBlank s with
          | false => exact absurd hdb hbl
          | true => rfl
        have := hchar.mpr (hblank.mp hbl')
        rw [this] at hmiss
        simp at hmiss
      · rintro ⟨s', l', rest', heq, hbl⟩
        rw [List.cons.injEq, Stmt.exprStr.injEq] at heq
        rw [← heq.1.1] at hbl
        cases hempty : (cleandoc s.toList).isEmpty with
        | false => rfl
        | true =>
          exfalso
          have : cleandoc s.toList = [] := by
            cases hc : cleandoc s.toList with
            | nil => rfl
            | cons a b => rw [hc] at hempty; simp at hempty
          have := hblank.mpr (hchar.mp this)
          rw [this] at hbl
          simp at hbl
    | funcDef n l b =>
      simp [docMissing, get_docstring]
    | asyncFuncDef n l b =>
      simp [docMissing, get_docstring]
    | classDef n l b =>
      simp [docMissing, get_docstring]
    | other l sub =>
      simp [docMissing, get_docstring]

/-! ### The claims -/

/-- A file that is only a class, with a class docstring, one documented
method `a` and one undocumented method `b`. -/
def oneClassModule : PyModule :=
  ⟨[Stmt.classDef "C" 1
      [Stmt.exprStr "Class doc." 1,
        Stmt.funcDef "a" 2 [Stmt.exprStr "Doc." 2],
        Stmt.funcDef "b" 4 [Stmt.other 5 []]]]⟩

/-- C1: the code double-counts an undocumented method.  On a file that is
only a class with a documented method `a` and an undocumented method `b`,
`analyze_file` returns two findings for `b` — a `Method` item from the
class-body loop and a `Function` item from the general `ast.walk` visit
of the same node — not the single `Method` finding the claim states. -/
theorem c1_method_double_counted :
    moduleFindings oneClassModule =
      [⟨"Method", 4, "C.b"⟩, ⟨"Function", 4, "b"⟩] := by decide

/-- C2: when the root argument has a path segment starting with `'.'`
(the default argument `"."` included), every root `os.walk` yields
extends the argument and so also has that segment, the
`part.startswith('.')` filter skips it, and the scan processes zero
files, reports zero missing items and exits 0 whatever the tree holds. -/
theorem c2_dot_root_scans_nothing (absDir : String) (argSegs : List String)
    (entries : List WalkEntry)
    (hdot : ∃ p ∈ argSegs, startsWithDot p = true)
    (hroots : ∀ e ∈ entries, ∃ t, e.1 = argSegs ++ t) :
    (scanStateOf entries).filesScanned = 0 ∧
    (scanStateOf entries).totalMissing = 0 ∧
    scan_directory absDir entries =
      (["Scanning directory: " ++ absDir, "", "--- Summary ---",
        "Total missing docstrings found: 0", "No missing docstrings found!"], 0) := by
  obtain ⟨p, hp, hdotp⟩ := hdot
  have hskip : ∀ e ∈ entries, shouldSkipRoot e.1 = true := by
    intro e he
    obtain ⟨t, ht⟩ := hroots e he
    unfold shouldSkipRoot
    rw [Bool.or_eq_true]
    left
    rw [List.any_eq_true]
    exact ⟨p, by rw [ht]; exact List.mem_append_left _ hp, hdotp⟩
  have hstate : scanStateOf entries = ⟨0, 0, []⟩ := by
    rw [scanStateOf_eq]
    have h1 : entries.map entryTotal = entries.map (fun _ => 0) := by
      apply List.map_congr_left
      intro e he
      simp [entryTotal, hskip e he]
    have h2 : entries.map entryScan = entries.map (fun _ => 0) := by
      apply List.map_congr_left
      intro e he
      simp [entryScan, hskip e he]
    have h3 : entries.flatMap entryOut = [] := by
      rw [List.flatMap_eq_nil_iff]
      intro e he
      simp [entryOut, hskip e he]
    rw [h1, h2, h3]
    simp
  refine ⟨by rw [hstate], by rw [hstate], ?_⟩
  unfold scan_directory
  rw [hstate]
  simp only [gt_iff_lt, Nat.lt_irrefl, if_false]
  rfl

/-- A tree under `"."` holding an undocumented function in a regular
subdirectory: material the scan would report were the root not skipped. -/
def dotEntries : List WalkEntry :=
  [(["."], [⟨"mod.py", FileContent.parsed ⟨[Stmt.funcDef "f" 1 [Stmt.other 2 []]]⟩⟩]),
   ([".", "pkg"], [⟨"a.py", FileContent.parsed ⟨[Stmt.funcDef "g" 1 [Stmt.other 2 []]]⟩⟩])]

/-- C2, witnessed at the default argument `"."` over a tree with
undocumented code: nothing is scanned and the exit code is 0. -/
theorem c2_witness :
    targetOf [] = "." ∧
    scan_directory "/cwd" dotEntries =
      (["Scanning directory: /cwd", "", "--- Summary ---",
        "Total missing docstrings found: 0", "No missing docstrings found!"], 0) :=
  ⟨rfl,
    (c2_dot_root_scans_nothing "/cwd" ["."] dotEntries
      ⟨".", by decide, by decide⟩
      (by
        intro e he
        simp only [dotEntries, List.mem_cons, List.not_mem_nil, or_false] at he
        rcases he with rfl | rfl
        · exact ⟨[], rfl⟩
        · exact ⟨["pkg"], rfl⟩)).2.2⟩

/-- C3: the documented-iff-nonblank-after-trimming claim fails.  The
docstring `"\n "` (a newline then a space) trims to the empty string,
yet `inspect.cleandoc` keeps the space line, `ast.get_docstring` is
truthy, and the function is counted as documented: `analyze_file`
reports nothing for it. -/
theorem c3_counterexample :
    pyStrip ("\n ").toList = [] ∧
    docMissing [Stmt.exprStr "\n " 2] = false ∧
    moduleFindings ⟨[Stmt.funcDef "f" 1 [Stmt.exprStr "\n " 2]]⟩ = [] := by decide

/-- C3, amended: a declaration is counted as documented iff its body's
first statement is a string-literal expression whose text is not blank
in `inspect.cleandoc`'s sense — after tab expansion, a non-space
character on the first line or a non-empty later line.  In particular an
empty string literal, and any literal of spaces and tabs only, is
reported as missing; but a whitespace-only literal with a blank
character after a newline (such as `"\n "`) counts as documented. -/
theorem c3_documented_iff :
    (∀ body : List Stmt, docMissing body = false ↔
      ∃ s l rest, body = Stmt.exprStr s l :: rest ∧ docBlank s = false) ∧
    (∀ l : Nat, docMissing [Stmt.exprStr "" l] = true) ∧
    (∀ (s : String) (l : Nat) (rest : List Stmt),
      (∀ c ∈ s.toList, c = ' ' ∨ c = '\t') →
      docMissing (Stmt.exprStr s l :: rest) = true) := by
  refine ⟨docMissing_eq_false_iff, fun l => rfl, ?_⟩
  intro s l rest hsp
  have hall : ∀ c ∈ pyExpandTabs s.toList, c = ' ' :=
    pyExpandTabsAux_all_space s.toList 0 hsp
  have hnonl : ∀ c ∈ pyExpandTabs s.toList, c ≠ '\n' := by
    intro c hc
    rw [hall c hc]
    decide
  have hsplit : splitLines (pyExpandTabs s.toList) = [pyExpandTabs s.toList] :=
    splitLines_no_newline _ hnonl
  have hnil : cleandoc s.toList = [] := by
    refine (cleandoc_eq_nil_iff s.toList (pyExpandTabs s.toList) [] hsplit).mpr ⟨?_, by simp⟩
    unfold lstripSp
    rw [List.dropWhile_eq_nil_iff]
    intro x hx
    simp [hall x hx]
  have hemp : (cleandoc s.toList).isEmpty = true := by rw [hnil]; rfl
  simpa [docMissing, get_docstring] using hemp

/-- C3, witness: the empty docstring and a spaces-and-tab docstring are
both reported as missing. -/
theorem c3_witness :
    docMissing [Stmt.exprStr "" 1] = true ∧
    docMissing [Stmt.exprStr " \t" 2] = true :=
  ⟨c3_documented_iff.2.1 1, c3_documented_iff.2.2 " \t" 2 [] (by decide)⟩

/-- A fully documented file in a regular directory. -/
def coveredEntries : List WalkEntry :=
  [(["proj"], [⟨"good.py", FileContent.parsed ⟨[Stmt.funcDef "f" 1 [Stmt.exprStr "Doc." 2]]⟩⟩])]

/-- C4: a fully documented file is NOT counted in `files_scanned` — the
counter is bumped only inside `if missing:`.  On a tree whose single
`.py` file is fully documented, `files_scanned` stays 0 where the claim
requires 1. -/
theorem c4_counterexample :
    analyze_file (FileContent.parsed ⟨[Stmt.funcDef "f" 1 [Stmt.exprStr "Doc." 2]]⟩) = [] ∧
    (scanStateOf coveredEntries).filesScanned = 0 ∧
    ¬ (scanStateOf coveredEntries).filesScanned = 1 := by decide

/-- C4, amended: a file appears in the per-file report only if its
missing sequence is non-empty, and `files_scanned` counts exactly the
candidate `.py` files whose missing sequence is non-empty — so fully
documented files, like unreadable and unparseable ones, are not
counted. -/
theorem c4_scanned_counts_only_failing_files (entries : List WalkEntry) :
    ((scanStateOf entries).filesScanned =
      ((candidateFiles entries).filter
        (fun rf => !(analyze_file rf.2.content).isEmpty)).length) ∧
    (scanStateOf entries).out = entries.flatMap entryOut ∧
    (∀ (rootSegs : List String) (f : FsFile),
      analyze_file f.content = [] → fileBlock rootSegs f = []) ∧
    (∀ f : FsFile,
      f.content = FileContent.unreadable ∨ f.content = FileContent.syntaxError →
      fileScanCount f = 0) := by
  refine ⟨?_, ?_, ?_, ?_⟩
  · rw [scanStateOf_eq]
    exact scan_count_eq_filter entries
  · rw [scanStateOf_eq]
  · intro rootSegs f h
    simp [fileBlock, h]
  · rintro f (h | h) <;> simp [fileScanCount, analyze_file, h]

/-- C5: the exit code of a completed scan is 0 exactly when no missing
item was found, and 1 otherwise. -/
theorem c5_exit_code (absDir : String) (entries : List WalkEntry) :
    (scan_directory absDir entries).2 =
      if (scanStateOf entries).totalMissing = 0 then 0 else 1 := by
  unfold scan_directory
  cases h : (scanStateOf entries).totalMissing with
  | zero => simp [h]
  | succ n => simp [h]

/-- C6: a root that is not a directory fails before any scan: one error
line, exit code 1, and no other output. -/
theorem c6_invalid_root (args : List String) (fs : String → Option (List WalkEntry))
    (absDir : String) (h : fs (targetOf args) = none) :
    runMain args fs absDir =
      (["Error: Directory '" ++ targetOf args ++ "' does not exist."], 1) := by
  unfold runMain
  rw [h]

/-- C6, witness: with no argument and a filesystem with no directories,
the run emits exactly the error line for `"."` and exits 1. -/
theorem c6_witness :
    runMain [] (fun _ => none) "/cwd" =
      (["Error: Directory '.' does not exist."], 1) := by
  rw [c6_invalid_root [] (fun _ => none) "/cwd" rfl]
  rfl

/-- C7: failures of one file are contained: an unreadable or unparseable
file yields `[]` from `analyze_file` (no exception escapes), and the
walk-loop state after such a file is exactly the state before it, so the
scan continues unchanged over the remaining files. -/
theorem c7_file_failures_contained :
    analyze_file FileContent.unreadable = [] ∧
    analyze_file FileContent.syntaxError = [] ∧
    ∀ (rootSegs : List String) (st : ScanState) (f : FsFile) (rest : List FsFile),
      (f.content = FileContent.unreadable ∨ f.content = FileContent.syntaxError) →
      (f :: rest).foldl (processFile rootSegs) st = rest.foldl (processFile rootSegs) st := by
  refine ⟨rfl, rfl, ?_⟩
  rintro rootSegs st f rest (h | h) <;>
    simp [List.foldl_cons, processFile, analyze_file, h]

/-- A file with one undocumented function at line 3. -/
def undocEntries : List WalkEntry :=
  [(["proj"], [⟨"mod.py", FileContent.parsed ⟨[Stmt.funcDef "f" 3 [Stmt.other 4 []]]⟩⟩])]

/-- C8: the claimed literal texts are not what the program prints.  The
finding line ends `"is missing a docstring."`, not `"is missing a
documentation block."`, and the summary reads `"Total missing docstrings
found: <count>"`, not `"Total missing documentation items found:
<count>"`. -/
theorem c8_counterexample :
    (scan_directory "/abs/proj" undocEntries).1 =
      ["Scanning directory: /abs/proj", "", "proj/mod.py:",
        "  - Line 3: Function 'f' is missing a docstring.", "",
        "--- Summary ---", "Total missing docstrings found: 1"] ∧
    "  - Line 3: Function 'f' is missing a documentation block." ∉
      (scan_directory "/abs/proj" undocEntries).1 ∧
    "Total missing documentation items found: 1" ∉
      (scan_directory "/abs/proj" undocEntries).1 := by decide

/-- The report lines of one file, as the amended claim words them: a
path header line, then per missing declaration
`  - Line <N>: <Kind> '<qualifiedName>' is missing a docstring.`, then a
blank line; nothing for a file without findings. -/
def specFileReport (rootSegs : List String) (f : FsFile) : List String :=
  if endsWithPy f.name && !(analyze_file f.content).isEmpty then
    (joinPath (rootSegs ++ [f.name]) ++ ":") ::
      (analyze_file f.content).map (fun i =>
        "  - Line " ++ toString i.line ++ ": " ++ i.kind ++ " '" ++ i.name ++
          "' is missing a docstring.") ++ [""]
  else []

/-- The whole report, as the amended claim words it: the header, the
per-file blocks of the non-skipped roots in walk order, the summary
heading, the line `Total missing docstrings found: <count>`, and the
all-clear line when the count is zero. -/
def specScanReport (absDir : String) (entries : List WalkEntry) : List String :=
  ["Scanning directory: " ++ absDir, ""] ++
    entries.flatMap (fun e =>
      if shouldSkipRoot e.1 then [] else e.2.flatMap (specFileReport e.1)) ++
    ["--- Summary ---",
      "Total missing docstrings found: " ++ toString (scanStateOf entries).totalMissing] ++
    (if (scanStateOf entries).totalMissing = 0 then ["No missing docstrings found!"] else [])

/-- C8, amended: the printed output is exactly the header, one block per
file with findings (path header, `  - Line <N>: <Kind> '<name>' is
missing a docstring.` per finding, blank line), and the summary
`Total missing docstrings found: <count>`. -/
theorem c8_output_format (absDir : String) (entries : List WalkEntry) :
    (scan_directory absDir entries).1 = specScanReport absDir entries := by
  have hblock : ∀ (rootSegs : List String) (f : FsFile),
      fileBlock rootSegs f = specFileReport rootSegs f := by
    intro rootSegs f
    rfl
  have hout : entries.flatMap entryOut =
      entries.flatMap (fun e =>
        if shouldSkipRoot e.1 then [] else e.2.flatMap (specFileReport e.1)) := by
    apply List.flatMap_congr
    intro e _
    unfold entryOut
    rw [← funext (hblock e.1)]
  unfold scan_directory specScanReport
  rw [scanStateOf_eq]
  cases h : ((entries.map entryTotal).sum) with
  | zero =>
    simp only [h, gt_iff_lt, Nat.lt_irrefl, if_false, if_pos rfl]
    rw [hout]
    simp
  | succ n =>
    simp only [h, gt_iff_lt, Nat.succ_pos, if_true]
    rw [hout]
    simp

/-- C9: findings are NOT ordered by ascending line number.  `ast.walk`
is breadth-first, so a function nested inside an earlier function is
reported after every later top-level function: lines come out
`[1, 5, 2]`. -/
theorem c9_counterexample :
    (moduleFindings
        ⟨[Stmt.funcDef "outer" 1 [Stmt.funcDef "inner" 2 [Stmt.other 3 []]],
          Stmt.funcDef "g" 5 [Stmt.other 6 []]]⟩).map Finding.line = [1, 5, 2] ∧
    ¬ List.Pairwise (fun f g : Finding => f.line ≤ g.line)
      (moduleFindings
        ⟨[Stmt.funcDef "outer" 1 [Stmt.funcDef "inner" 2 [Stmt.other 3 []]],
          Stmt.funcDef "g" 5 [Stmt.other 6 []]]⟩) := by decide

/-- C9, amended: the findings follow the breadth-first walk order, which
coincides with ascending line order only for modules with no nested
declarations: when every top-level statement has a declaration-free
subtree below it and the top-level statements come in ascending line
order, the missing-declaration sequence is ascending by line. -/
theorem c9_flat_module_sorted (m : PyModule)
    (hflat : ∀ s ∈ m.body, ∀ c ∈ children s, declFree c = true)
    (hord : List.Pairwise (fun a b => stmtLine a ≤ stmtLine b) m.body) :
    List.Pairwise (fun f g : Finding => f.line ≤ g.line) (moduleFindings m) := by
  unfold moduleFindings
  rw [walk_findings_flat (sizeList m.body) m.body (le_refl _) hflat]
  exact pairwise_flatMap_checkNode hflat hord

/-- C9, witness: a flat module with three undocumented declarations in
line order yields findings in line order. -/
theorem c9_witness :
    List.Pairwise (fun f g : Finding => f.line ≤ g.line)
      (moduleFindings
        ⟨[Stmt.funcDef "a" 1 [Stmt.other 2 []],
          Stmt.classDef "B" 4 [Stmt.exprStr "x" 5],
          Stmt.funcDef "c" 7 [Stmt.other 8 []]]⟩) :=
  c9_flat_module_sorted _ (by decide) (by decide)

/-- C10: an asynchronous function is reported with kind `"Function"`,
not as a distinct `AsyncFunction` kind — the code appends the same
`"Function"` tag for both `ast.FunctionDef` and `ast.AsyncFunctionDef`. -/
theorem c10_counterexample :
    moduleFindings ⟨[Stmt.asyncFuncDef "f" 1 [Stmt.other 2 []]]⟩ =
      [⟨"Function", 1, "f"⟩] ∧
    Finding.mk "AsyncFunction" 1 "f" ∉
      moduleFindings ⟨[Stmt.asyncFuncDef "f" 1 [Stmt.other 2 []]]⟩ := by decide

/-- C10, amended: every undocumented function-like declaration at any
nesting level is included in the findings, but synchronous and
asynchronous functions are both reported under the single kind
`"Function"`; no distinct `AsyncFunction` kind exists in the output. -/
theorem c10_all_nested_reported_as_function (m : PyModule) (t s : Stmt)
    (n : String) (l : Nat) (b : List Stmt)
    (ht : t ∈ m.body) (ho : Occurs s t)
    (hs : s = Stmt.funcDef n l b ∨ s = Stmt.asyncFuncDef n l b)
    (hmiss : docMissing b = true) :
    Finding.mk "Function" l n ∈ moduleFindings m := by
  unfold moduleFindings
  rw [List.mem_flatMap]
  refine ⟨s, (mem_walkQueue m.body s).mpr ⟨t, ht, ho⟩, ?_⟩
  rcases hs with rfl | rfl <;> simp [checkNode, hmiss]

/-- C10, witness: an undocumented async function nested two levels deep
(inside a compound statement inside a function) is reported, with kind
`"Function"`. -/
theorem c10_witness :
    Finding.mk "Function" 3 "f" ∈
      moduleFindings
        ⟨[Stmt.funcDef "outer" 1
            [Stmt.other 2 [Stmt.asyncFuncDef "f" 3 [Stmt.other 4 []]]]]⟩ :=
  c10_all_nested_reported_as_function _
    (Stmt.funcDef "outer" 1 [Stmt.other 2 [Stmt.asyncFuncDef "f" 3 [Stmt.other 4 []]]])
    (Stmt.asyncFuncDef "f" 3 [Stmt.other 4 []]) "f" 3 [Stmt.other 4 []]
    (by simp)
    (Occurs.child (t := Stmt.funcDef "outer" 1 [Stmt.other 2 [Stmt.asyncFuncDef "f" 3 [Stmt.other 4 []]]])
      (by simp [children])
      (Occurs.child (t := Stmt.other 2 [Stmt.asyncFuncDef "f" 3 [Stmt.other 4 []]])
        (by simp [children]) (Occurs.refl _)))
    (Or.inr rfl) (by decide)
